import Mathlib

/-!
Shallow embedding of the timeline-trace sampling engine of
`src/viewer/main.py` (classes `TimelineTrace`, `TimelineTraceSlice`).

Times and rank identifiers are modelled as `Int` (the engine only compares,
subtracts and orders them); kinds as `Nat` (the engine only groups by them and
sorts the group keys); the lane-position arithmetic of `add_rank_pos` as `ℚ`.
Fallible steps (`random.sample` raising `ValueError` on a negative sample
size, `pandas.concat` raising on an empty collection of frames) are modelled
by an `Option` result.  The process-wide random source is modelled by passing
the list `draw` that `random.sample` would return; theorems quantify over it.
-/

/-- One CSV row: `COLUMNS = ['rank0', 't0', 'rank1', 't1', 'kind']`. -/
structure Event where
  rank0 : Int
  t0 : Int
  rank1 : Int
  t1 : Int
  kind : Nat
deriving DecidableEq

/-- The row ordering used by `df.sort_values('t0')`: ascending start time. -/
def t0le (a b : Event) : Prop := a.t0 ≤ b.t0

instance : DecidableRel t0le := fun a b => inferInstanceAs (Decidable (a.t0 ≤ b.t0))

instance : IsTotal Event t0le := ⟨fun a b => Int.le_total a.t0 b.t0⟩

instance : IsTrans Event t0le := ⟨fun _ _ _ h1 h2 => le_trans h1 h2⟩

/-- `df.sort_values('t0', inplace=True)`: the full frame sorted by `t0`. -/
def sortRows (rows : List Event) : List Event := rows.insertionSort t0le

/-- The group keys produced by `df.groupby('kind')`: pandas `groupby` sorts
the distinct keys ascending (the default `sort=True`), so the kind order of
`self.__data` is ascending kind order. -/
def kindsOf (rows : List Event) : List Nat :=
  ((rows.map Event.kind).dedup).insertionSort (· ≤ ·)

/-- One per-kind frame `kind_df` of `self.__data`: the rows of that kind, in
the order they have in the `t0`-sorted frame (groupby preserves intra-group
order). -/
def kindGroup (rows : List Event) (k : Nat) : List Event :=
  (sortRows rows).filter (fun e => e.kind == k)

/-- `self.__data`: the ordered (kind, frame) association built by `read_csv`
(lines 60-67). -/
def buildGroups (rows : List Event) : List (Nat × List Event) :=
  (kindsOf rows).map (fun k => (k, kindGroup rows k))

/-- `get_kinds`: `list(self.__data.keys())`. -/
def getKinds (rows : List Event) : List Nat := (buildGroups rows).map Prod.fst

/-- Spec-side definition for claim C8 only, following the spec's words
"group events by kind, preserving first-seen kind ordering": the distinct
kinds in order of first appearance in the input row sequence. -/
def firstSeenKinds (rows : List Event) : List Nat :=
  rows.foldl (fun acc e => if e.kind ∈ acc then acc else acc ++ [e.kind]) []

/-- `index_start` entry for one kind (main.py lines 74-76):
`t1_ser.searchsorted(time_range[0])` with the default left side on the
ascending-sorted `t1` series equals the number of rows with `t1 <` the bound;
an invisible kind contributes `0`. -/
def idxStartK (visible : Nat → Bool) (start : Int) (k : Nat) (g : List Event) : Nat :=
  if visible k then g.countP (fun e => decide (e.t1 < start)) else 0

/-- `index_end` entry for one kind (main.py lines 77-79):
`kind_df['t0'].searchsorted(time_range[1], 'right')` on the ascending `t0`
column equals the number of rows with `t0 ≤` the bound; invisible kinds
contribute `0`. -/
def idxEndK (visible : Nat → Bool) (stop : Int) (k : Nat) (g : List Event) : Nat :=
  if visible k then g.countP (fun e => decide (e.t0 ≤ stop)) else 0

/-- One entry of `num_list = index_end - index_start` (line 81); note the
code does not clamp this difference, so it may be negative. -/
def countK (visible : Nat → Bool) (tr : Int × Int) (kg : Nat × List Event) : Int :=
  (idxEndK visible tr.2 kg.1 kg.2 : Int) - (idxStartK visible tr.1 kg.1 kg.2 : Int)

/-- `num_total` (line 83): the last entry of `num_list.cumsum()`, i.e. the sum
of all per-kind counts (`0` when there are no kinds). -/
def trueTotal (groups : List (Nat × List Event)) (tr : Int × Int) (visible : Nat → Bool) : Int :=
  (groups.map (countK visible tr)).sum

/-- `numpy.searchsorted(sampled_idxs, bound, 'left')` on the ascending-sorted
array `sampled_idxs`: the number of entries `< bound` (lines 92-93). -/
def ssLeft (s : List Int) (bound : Int) : Nat := s.countP (fun v => decide (v < bound))

/-- `range(num_total)` materialised as integers. -/
def rangeCast (n : Nat) : List Int := (List.range n).map Int.ofNat

/-- `sampled_idxs` after lines 86-90: either `random.sample(range(num_total),
num_samples)` (the caller-supplied `draw`) when `num_total > num_samples`, or
`range(num_total)` otherwise; in both cases sorted ascending
(`sampled_idxs.sort()`). -/
def sampledIdxs (numTotal numSamples : Int) (draw : List Nat) : List Int :=
  (if numTotal > numSamples then draw.map Int.ofNat
   else rangeCast numTotal.toNat).insertionSort (· ≤ ·)

/-- The positional indices handed to `df.iloc` for one kind (lines 92-97):
the slice `sampled_idxs[l:r]` (with `l`,`r` the left searchsorted positions of
this kind's cumulative boundaries `a` and `b`), shifted by `-a` and then by
`+istart = index_start[k]`. -/
def groupPositions (istart : Nat) (s : List Int) (a b : Int) : List Nat :=
  ((s.drop (ssLeft s a)).take (ssLeft s b - ssLeft s a)).map
    (fun v => ((istart : Int) + (v - a)).toNat)

/-- `df.iloc[idx_start + idxs]` for one kind (line 96): the rows of the kind's
`t0`-ordered frame at the computed positions. -/
def matGroup (g : List Event) (istart : Nat) (s : List Int) (a b : Int) : List Event :=
  (groupPositions istart s a b).filterMap (fun p => g.get? p)

/-- The per-kind sub-frames of line 96-97, walking the kinds in order while
accumulating the cumulative count boundary (`num_sum_left`/`num_sum_right`,
lines 82-84, are exactly the running prefix sums of `num_list`). -/
def sliceGroups (visible : Nat → Bool) (tr : Int × Int) (s : List Int) :
    List (Nat × List Event) → Int → List (List Event)
  | [], _ => []
  | kg :: rest, acc =>
      matGroup kg.2 (idxStartK visible tr.1 kg.1 kg.2) s acc (acc + countK visible tr kg) ::
        sliceGroups visible tr s rest (acc + countK visible tr kg)

/-- The same walk, but recording for each materialised row its underlying
identity `(kind, local position)` instead of the row contents. -/
def idGroups (visible : Nat → Bool) (tr : Int × Int) (s : List Int) :
    List (Nat × List Event) → Int → List (List (Nat × Nat))
  | [], _ => []
  | kg :: rest, acc =>
      (groupPositions (idxStartK visible tr.1 kg.1 kg.2) s acc
          (acc + countK visible tr kg)).map (fun p => (kg.1, p)) ::
        idGroups visible tr s rest (acc + countK visible tr kg)

/-- `get_sampled_time_slice(time_range, kinds, num_samples)` (lines 72-98).
`none` models an uncaught exception: `random.sample` raises `ValueError` when
its sample size is negative (reached whenever `num_total > num_samples` and
`num_samples < 0`), and `pandas.concat` raises when `self.__data` holds no
frames at all.  Otherwise the result is the concatenated per-kind sub-frames
together with `num_total`. -/
def sampleSlice (groups : List (Nat × List Event)) (tr : Int × Int) (visible : Nat → Bool)
    (numSamples : Int) (draw : List Nat) : Option (List Event × Int) :=
  let numTotal := trueTotal groups tr visible
  if numTotal > numSamples ∧ numSamples < 0 then none
  else if groups = [] then none
  else some ((sliceGroups visible tr (sampledIdxs numTotal numSamples draw) groups 0).flatten,
             numTotal)

/-- The `(kind, local position)` identities of the rows a call materialises,
in materialisation order. -/
def sampleIds (groups : List (Nat × List Event)) (tr : Int × Int) (visible : Nat → Bool)
    (numSamples : Int) (draw : List Nat) : List (Nat × Nat) :=
  (idGroups visible tr (sampledIdxs (trueTotal groups tr visible) numSamples draw)
    groups 0).flatten

/-- The exact matching sub-frame of one kind: the half-open local-position
range `[index_start, index_end)` of its `t0`-ordered frame (empty for an
invisible kind). -/
def exactGroup (visible : Nat → Bool) (tr : Int × Int) (kg : Nat × List Event) : List Event :=
  (kg.2.drop (idxStartK visible tr.1 kg.1 kg.2)).take
    (idxEndK visible tr.2 kg.1 kg.2 - idxStartK visible tr.1 kg.1 kg.2)

/-- All matching events, kind by kind in kind order, each kind's events in
ascending local-position order. -/
def exactSlice (groups : List (Nat × List Event)) (tr : Int × Int)
    (visible : Nat → Bool) : List Event :=
  (groups.map (exactGroup visible tr)).flatten

/-- What `random.sample(range(numTotal), numSamples)` guarantees about its
result: `numSamples` pairwise-distinct members of the population. -/
def ValidDraw (draw : List Nat) (numTotal numSamples : Int) : Prop :=
  draw.length = numSamples.toNat ∧ draw.Nodup ∧ ∀ n ∈ draw, (n : Int) < numTotal

instance (draw : List Nat) (numTotal numSamples : Int) :
    Decidable (ValidDraw draw numTotal numSamples) := by
  unfold ValidDraw; infer_instance

/-- The derived display fields attached by `add_rank_pos` (lines 38-46). -/
structure LaneFields where
  rank0_pos : ℚ
  height : ℚ
  rank1_pos : ℚ
deriving DecidableEq

/-- The fields `add_rank_pos` assigns to the row at positional index `i`:
`rank0_pos = rank0 + (i mod num_conc + 0.5)/num_conc`, `height = 1/num_conc`,
and `rank1_pos = rank0_pos` when `rank0 == rank1`, else `rank1 + 0.5`. -/
def rankPosRow (numConc : Nat) (i : Nat) (e : Event) : Event × LaneFields :=
  let r0p : ℚ := (e.rank0 : ℚ) + (((i % numConc : Nat) : ℚ) + 1/2) / (numConc : ℚ)
  (e, { rank0_pos := r0p
        height := 1 / (numConc : ℚ)
        rank1_pos := if e.rank0 = e.rank1 then r0p else (e.rank1 : ℚ) + 1/2 })

/-- Helper: assign lane fields to each row, threading the positional index
(the frame's index is `0..n-1` after `reset_index`). -/
def addRankPosFrom (numConc : Nat) : Nat → List Event → List (Event × LaneFields)
  | _, [] => []
  | i, e :: rest => rankPosRow numConc i e :: addRankPosFrom numConc (i + 1) rest

/-- `TimelineTraceSlice.add_rank_pos(num_conc)` (lines 38-46) over a slice
whose rows are indexed `0..n-1`. -/
def add_rank_pos (df : List Event) (numConc : Nat) : List (Event × LaneFields) :=
  addRankPosFrom numConc 0 df

/-! ### Sorted-list slice machinery

`numpy.searchsorted(s, bound, 'left')` on a sorted array counts the entries
below the bound, so the slice `s[ssLeft s a : ssLeft s b]` of a sorted `s` is
exactly the sublist of entries in `[a, b)`. -/

lemma sorted_take_ssLeft (s : List Int) (b : Int) (hs : s.Sorted (· ≤ ·)) :
    s.take (ssLeft s b) = s.filter (fun v => decide (v < b)) := by
  induction s with
  | nil => rfl
  | cons x xs ih =>
      rcases List.sorted_cons.mp hs with ⟨hx, hxs⟩
      by_cases hb : x < b
      · have : ssLeft (x :: xs) b = ssLeft xs b + 1 := by
          simp [ssLeft, List.countP_cons, hb]
        rw [this, List.take_succ_cons, ih hxs]
        simp [hb]
      · have h0 : ssLeft xs b = 0 := by
          refine List.countP_eq_zero.mpr ?_
          intro y hy
          simp only [decide_eq_true_eq]
          exact fun hyb => hb (lt_of_le_of_lt (hx y hy) hyb)
        have hz : ssLeft (x :: xs) b = 0 := by
          unfold ssLeft at h0 ⊢
          rw [List.countP_cons]
          simp [hb, h0]
        rw [hz, List.take_zero]
        refine (List.filter_eq_nil_iff.mpr ?_).symm
        intro y hy
        simp only [decide_eq_true_eq]
        rcases List.mem_cons.mp hy with h | h
        · exact h ▸ hb
        · exact fun hyb => hb (lt_of_le_of_lt (hx y h) hyb)

lemma sorted_drop_ssLeft (s : List Int) (a : Int) (hs : s.Sorted (· ≤ ·)) :
    s.drop (ssLeft s a) = s.filter (fun v => decide (a ≤ v)) := by
  induction s with
  | nil => rfl
  | cons x xs ih =>
      rcases List.sorted_cons.mp hs with ⟨hx, hxs⟩
      by_cases ha : x < a
      · have : ssLeft (x :: xs) a = ssLeft xs a + 1 := by
          simp [ssLeft, List.countP_cons, ha]
        rw [this, List.drop_succ_cons, ih hxs]
        simp [not_le.mpr ha]
      · have h0 : ssLeft xs a = 0 := by
          refine List.countP_eq_zero.mpr ?_
          intro y hy
          simp only [decide_eq_true_eq]
          exact fun hya => ha (lt_of_le_of_lt (hx y hy) hya)
        have hz : ssLeft (x :: xs) a = 0 := by
          unfold ssLeft at h0 ⊢
          rw [List.countP_cons]
          simp [ha, h0]
        rw [hz, List.drop_zero]
        refine (List.filter_eq_self.mpr ?_).symm
        intro y hy
        simp only [decide_eq_true_eq]
        rcases List.mem_cons.mp hy with h | h
        · exact h ▸ not_lt.mp ha
        · exact (not_lt.mp ha).trans (hx y h)

lemma ssLeft_mono (s : List Int) {a b : Int} (h : a ≤ b) : ssLeft s a ≤ ssLeft s b := by
  refine List.countP_mono_left ?_
  intro v _ hv
  simp only [decide_eq_true_eq] at *
  exact lt_of_lt_of_le hv h

lemma ssLeft_add_section (s : List Int) (a b : Int) (hab : a ≤ b) :
    ssLeft s a + (s.filter (fun v => decide (a ≤ v))).countP (fun v => decide (v < b))
      = ssLeft s b := by
  induction s with
  | nil => rfl
  | cons x xs ih =>
      unfold ssLeft at ih ⊢
      rw [List.countP_cons, List.countP_cons, List.filter_cons]
      by_cases hxa : x < a
      · have hxb : x < b := lt_of_lt_of_le hxa hab
        have hna : ¬ a ≤ x := not_le.mpr hxa
        simp [hxa, hxb, hna, List.countP_cons]
        omega
      · have hax : a ≤ x := not_lt.mp hxa
        by_cases hxb : x < b
        · simp [hxa, hxb, hax, List.countP_cons]
          omega
        · simp [hxa, hxb, hax, List.countP_cons]
          omega

lemma slice_eq_filter (s : List Int) (a b : Int) (hs : s.Sorted (· ≤ ·)) :
    (s.drop (ssLeft s a)).take (ssLeft s b - ssLeft s a)
      = s.filter (fun v => decide (a ≤ v) && decide (v < b)) := by
  by_cases hab : a ≤ b
  · have hsorted : (s.filter (fun v => decide (a ≤ v))).Sorted (· ≤ ·) :=
      hs.sublist (List.filter_sublist s)
    have hsub : ssLeft s b - ssLeft s a = ssLeft (s.filter (fun v => decide (a ≤ v))) b := by
      have := ssLeft_add_section s a b hab
      unfold ssLeft at *
      omega
    rw [sorted_drop_ssLeft s a hs, hsub, sorted_take_ssLeft _ b hsorted, List.filter_filter]
    refine List.filter_congr ?_
    intro v _
    simp [Bool.and_comm]
  · have h1 : ssLeft s b - ssLeft s a = 0 :=
      Nat.sub_eq_zero_of_le (ssLeft_mono s (le_of_not_le hab))
    rw [h1, List.take_zero]
    refine (List.filter_eq_nil_iff.mpr ?_).symm
    intro v _
    simp only [Bool.and_eq_true, decide_eq_true_eq, not_and, not_lt]
    intro hav
    exact le_trans (le_of_not_le hab) hav

/-! ### Positions produced for one kind -/

lemma mem_groupPositions {istart : Nat} {s : List Int} {a b : Int} {p : Nat}
    (hs : s.Sorted (· ≤ ·)) (hp : p ∈ groupPositions istart s a b) :
    ∃ v ∈ s, a ≤ v ∧ v < b ∧ p = ((istart : Int) + (v - a)).toNat := by
  unfold groupPositions at hp
  rw [slice_eq_filter s a b hs] at hp
  rcases List.mem_map.mp hp with ⟨v, hv, hveq⟩
  rcases List.mem_filter.mp hv with ⟨hvs, hvp⟩
  simp only [Bool.and_eq_true, decide_eq_true_eq] at hvp
  exact ⟨v, hvs, hvp.1, hvp.2, hveq.symm⟩

lemma groupPositions_bounds {istart : Nat} {s : List Int} {a b : Int} {p : Nat}
    (hs : s.Sorted (· ≤ ·)) (hp : p ∈ groupPositions istart s a b) :
    istart ≤ p ∧ (p : Int) < (istart : Int) + (b - a) := by
  rcases mem_groupPositions hs hp with ⟨v, _, hav, hvb, hpe⟩
  have hnn : (0 : Int) ≤ (istart : Int) + (v - a) := by omega
  have : ((((istart : Int) + (v - a)).toNat : Int)) = (istart : Int) + (v - a) :=
    Int.toNat_of_nonneg hnn
  omega

lemma filterMap_get?_length {α : Type} (g : List α) (ps : List Nat)
    (h : ∀ p ∈ ps, p < g.length) :
    (ps.filterMap (fun p => g.get? p)).length = ps.length := by
  induction ps with
  | nil => rfl
  | cons p ps ih =>
      have hp : p < g.length := h p (List.mem_cons_self p ps)
      have hsome : g.get? p = some (g.get ⟨p, hp⟩) := List.get?_eq_get hp
      rw [List.filterMap_cons, hsome]
      simp only [List.length_cons]
      rw [ih (fun q hq => h q (List.mem_cons_of_mem p hq))]

lemma filterMap_get?_sequential {α : Type} (g : List α) (istart n : Nat)
    (h : istart + n ≤ g.length) :
    ((List.range n).map (fun j => istart + j)).filterMap (fun p => g.get? p)
      = (g.drop istart).take n := by
  induction n with
  | zero => rfl
  | succ n ih =>
      rw [List.range_succ, List.map_append, List.filterMap_append,
        ih (by omega), List.take_succ]
      have hlt : istart + n < g.length := by omega
      have h1 : g.get? (istart + n) = some (g.get ⟨istart + n, hlt⟩) := List.get?_eq_get hlt
      have h2 : (g.drop istart)[n]? = some (g.get ⟨istart + n, hlt⟩) := by
        rw [List.getElem?_drop, ← h1]
        exact (List.get?_eq_getElem? g (istart + n)).symm
      rw [h2]
      simp [List.filterMap_cons, List.getElem?_eq_getElem hlt]

/-! ### Build invariants -/

lemma sortRows_sorted (rows : List Event) : (sortRows rows).Sorted t0le :=
  List.sorted_insertionSort t0le rows

lemma kindGroup_sorted (rows : List Event) (k : Nat) : (kindGroup rows k).Sorted t0le :=
  (sortRows_sorted rows).sublist (List.filter_sublist _)

lemma mem_kindGroup_kind {rows : List Event} {k : Nat} {e : Event}
    (h : e ∈ kindGroup rows k) : e.kind = k := by
  have := List.of_mem_filter h
  simpa using this

lemma mem_kindGroup_rows {rows : List Event} {k : Nat} {e : Event}
    (h : e ∈ kindGroup rows k) : e ∈ rows := by
  have h1 : e ∈ sortRows rows := List.mem_of_mem_filter h
  exact (List.perm_insertionSort t0le rows).mem_iff.mp h1

lemma mem_buildGroups {rows : List Event} {kg : Nat × List Event}
    (h : kg ∈ buildGroups rows) : kg.2 = kindGroup rows kg.1 := by
  rcases List.mem_map.mp h with ⟨k, _, hkeq⟩
  rw [← hkeq]

lemma getKinds_eq_kindsOf (rows : List Event) : getKinds rows = kindsOf rows := by
  unfold getKinds buildGroups
  have h : ∀ l : List Nat, (l.map (fun k => (k, kindGroup rows k))).map Prod.fst = l := by
    intro l
    induction l with
    | nil => rfl
    | cons x xs ih => simp [ih]
  exact h _

lemma kindsOf_nodup (rows : List Event) : (kindsOf rows).Nodup :=
  ((List.perm_insertionSort _ _).nodup_iff).mpr (List.nodup_dedup _)

lemma buildGroups_fst (rows : List Event) :
    (buildGroups rows).map Prod.fst = kindsOf rows := getKinds_eq_kindsOf rows

/-- In a `t0`-sorted frame, a row at a position below
`searchsorted(stop, 'right')` has `t0 ≤ stop`. -/
lemma sorted_get_t0_le (g : List Event) (stop : Int) :
    g.Pairwise t0le → ∀ (p : Nat) (e : Event), g.get? p = some e →
      p < g.countP (fun x => decide (x.t0 ≤ stop)) → e.t0 ≤ stop := by
  induction g with
  | nil => intro _ p e he _; simp at he
  | cons x xs ih =>
      intro hp p e he hcount
      rcases List.pairwise_cons.mp hp with ⟨hx, hxs⟩
      by_cases hxstop : x.t0 ≤ stop
      · cases p with
        | zero => simp at he; rw [← he]; exact hxstop
        | succ p =>
            rw [List.countP_cons] at hcount
            simp [hxstop] at hcount
            exact ih hxs p e (by simpa using he) (by omega)
      · have h0 : xs.countP (fun x => decide (x.t0 ≤ stop)) = 0 := by
          refine List.countP_eq_zero.mpr ?_
          intro y hy
          simp only [decide_eq_true_eq]
          exact fun hystop => hxstop (le_trans (hx y hy) hystop)
        rw [List.countP_cons, h0] at hcount
        simp [hxstop] at hcount

/-! ### Unfolding the sampler -/

lemma sampledIdxs_sorted (numTotal numSamples : Int) (draw : List Nat) :
    (sampledIdxs numTotal numSamples draw).Sorted (· ≤ ·) :=
  List.sorted_insertionSort _ _

lemma sampleSlice_eq_some {groups : List (Nat × List Event)} {tr : Int × Int}
    {visible : Nat → Bool} {ns : Int} {draw : List Nat}
    (h1 : ¬(trueTotal groups tr visible > ns ∧ ns < 0)) (h2 : groups ≠ []) :
    sampleSlice groups tr visible ns draw
      = some ((sliceGroups visible tr (sampledIdxs (trueTotal groups tr visible) ns draw)
                groups 0).flatten,
              trueTotal groups tr visible) := by
  unfold sampleSlice
  rw [if_neg h1, if_neg h2]

lemma sampleSlice_some_inv {groups : List (Nat × List Event)} {tr : Int × Int}
    {visible : Nat → Bool} {ns : Int} {draw : List Nat} {sl : List Event} {t : Int}
    (h : sampleSlice groups tr visible ns draw = some (sl, t)) :
    groups ≠ [] ∧ ¬(trueTotal groups tr visible > ns ∧ ns < 0) ∧
      sl = (sliceGroups visible tr (sampledIdxs (trueTotal groups tr visible) ns draw)
              groups 0).flatten ∧
      t = trueTotal groups tr visible := by
  unfold sampleSlice at h
  by_cases h1 : trueTotal groups tr visible > ns ∧ ns < 0
  · rw [if_pos h1] at h
    exact absurd h (by simp)
  · rw [if_neg h1] at h
    by_cases h2 : groups = []
    · rw [if_pos h2] at h
      exact absurd h (by simp)
    · rw [if_neg h2] at h
      simp only [Option.some.injEq, Prod.mk.injEq] at h
      exact ⟨h2, h1, h.1.symm, h.2.symm⟩

lemma mem_sliceGroups_flatten {visible : Nat → Bool} {tr : Int × Int} {s : List Int} :
    ∀ (groups : List (Nat × List Event)) (acc : Int) (e : Event),
      e ∈ (sliceGroups visible tr s groups acc).flatten →
      ∃ kg ∈ groups, ∃ a : Int, ∃ p : Nat,
        p ∈ groupPositions (idxStartK visible tr.1 kg.1 kg.2) s a
          (a + countK visible tr kg) ∧ kg.2.get? p = some e := by
  intro groups
  induction groups with
  | nil =>
      intro acc e he
      simp [sliceGroups] at he
  | cons kg rest ih =>
      intro acc e he
      simp only [sliceGroups] at he
      rcases List.mem_flatten.mp he with ⟨l, hl, hel⟩
      rcases List.mem_cons.mp hl with h | h
      · subst h
        rcases List.mem_filterMap.mp hel with ⟨p, hp, hget⟩
        exact ⟨kg, List.mem_cons_self kg rest, acc, p, hp, hget⟩
      · rcases ih (acc + countK visible tr kg) e (List.mem_flatten.mpr ⟨l, h, hel⟩)
          with ⟨kg', hkg', a, p, hp, hget⟩
        exact ⟨kg', List.mem_cons_of_mem kg hkg', a, p, hp, hget⟩

lemma groupPositions_vis_lt {visible : Nat → Bool} {tr : Int × Int}
    {kg : Nat × List Event} {s : List Int} {a : Int} {p : Nat}
    (hs : s.Sorted (· ≤ ·))
    (hp : p ∈ groupPositions (idxStartK visible tr.1 kg.1 kg.2) s a
      (a + countK visible tr kg)) :
    visible kg.1 = true ∧ p < idxEndK visible tr.2 kg.1 kg.2 := by
  have hb := groupPositions_bounds hs hp
  have hb2 : (p : Int) < (idxStartK visible tr.1 kg.1 kg.2 : Int) + countK visible tr kg := by
    have := hb.2
    omega
  by_cases hv : visible kg.1
  · refine ⟨hv, ?_⟩
    unfold countK at hb2
    omega
  · exfalso
    have hz1 : idxStartK visible tr.1 kg.1 kg.2 = 0 := by simp [idxStartK, hv]
    have hz2 : idxEndK visible tr.2 kg.1 kg.2 = 0 := by simp [idxEndK, hv]
    unfold countK at hb2
    rw [hz1, hz2] at hb2
    omega

lemma matGroup_nil_s (g : List Event) (istart : Nat) (a b : Int) :
    matGroup g istart [] a b = [] := by
  simp [matGroup, groupPositions, ssLeft]

lemma sliceGroups_nil_s {visible : Nat → Bool} {tr : Int × Int} :
    ∀ (groups : List (Nat × List Event)) (acc : Int),
      (sliceGroups visible tr [] groups acc).flatten = [] := by
  intro groups
  induction groups with
  | nil => intro acc; rfl
  | cons kg rest ih =>
      intro acc
      simp only [sliceGroups, List.flatten_cons, matGroup_nil_s, List.nil_append]
      exact ih _

lemma trueTotal_const_false (groups : List (Nat × List Event)) (tr : Int × Int) :
    trueTotal groups tr (fun _ => false) = 0 := by
  induction groups with
  | nil => rfl
  | cons kg rest ih =>
      unfold trueTotal at ih ⊢
      rw [List.map_cons, List.sum_cons, ih]
      simp [countK, idxStartK, idxEndK]

/-- C1 (amended): with a well-ordered time range, every event a successful
call returns satisfies the upper range bound `start_time ≤ time_range.end`
(the positions materialised for a kind all lie below `index_end`, which is
computed on the same `t0` ordering that `iloc` indexes).  The lower bound
`end_time ≥ time_range.start` of the original claim is refuted by
`claim_C1_counterexample`. -/
theorem claim_C1_amended (rows : List Event) (tr : Int × Int) (visible : Nat → Bool)
    (ns : Int) (draw : List Nat) (sl : List Event) (t : Int) (e : Event)
    (_hrange : tr.1 ≤ tr.2)
    (hres : sampleSlice (buildGroups rows) tr visible ns draw = some (sl, t))
    (he : e ∈ sl) : e.t0 ≤ tr.2 := by
  rcases sampleSlice_some_inv hres with ⟨-, -, hsl, -⟩
  rw [hsl] at he
  rcases mem_sliceGroups_flatten (buildGroups rows) 0 e he with ⟨kg, hkg, a, p, hp, hget⟩
  have hs := sampledIdxs_sorted (trueTotal (buildGroups rows) tr visible) ns draw
  rcases groupPositions_vis_lt hs hp with ⟨hv, hlt⟩
  have hg2 : kg.2 = kindGroup rows kg.1 := mem_buildGroups hkg
  have hsorted : kg.2.Pairwise t0le := by
    rw [hg2]
    exact kindGroup_sorted rows kg.1
  have hcount : p < kg.2.countP (fun x => decide (x.t0 ≤ tr.2)) := by
    have : idxEndK visible tr.2 kg.1 kg.2 = kg.2.countP (fun x => decide (x.t0 ≤ tr.2)) := by
      simp [idxEndK, hv]
    omega
  exact sorted_get_t0_le kg.2 tr.2 hsorted p e hget hcount

/-- C1 (counterexample): a trace with two well-formed events of one kind,
queried with the well-ordered range `[50, 1000]`: the call returns the event
`(t0 = 1, t1 = 2)` whose `end_time = 2` is below `time_range.start = 50`,
because the lower bound is found in end-time order but applied in start-time
order. -/
theorem claim_C1_counterexample :
    sampleSlice (buildGroups [⟨0, 0, 0, 100, 0⟩, ⟨0, 1, 0, 2, 0⟩]) (50, 1000)
        (fun _ => true) 10 []
      = some ([⟨0, 1, 0, 2, 0⟩], 1) ∧
    (50 : Int) ≤ 1000 ∧ (⟨0, 1, 0, 2, 0⟩ : Event).t1 < 50 := by
  decide

theorem claim_C1_witness : (⟨0, 1, 0, 2, 0⟩ : Event).t0 ≤ (1000 : Int) :=
  claim_C1_amended [⟨0, 0, 0, 100, 0⟩, ⟨0, 1, 0, 2, 0⟩] (50, 1000) (fun _ => true) 10 []
    [⟨0, 1, 0, 2, 0⟩] 1 ⟨0, 1, 0, 2, 0⟩ (by decide) (by decide) (by decide)

/-- C6 (amended): every returned event's kind is visible, and an invisible
kind contributes count `0` (no offset in the virtual index space).  The
empty-visible-set clause of the claim holds only for a non-negative sample
budget and a trace holding at least one kind: then the call returns the empty
slice with `true_total_count = 0` (`claim_C6_counterexample` shows the call
raising instead when `max_samples < 0`). -/
theorem claim_C6_amended (rows : List Event) (tr : Int × Int) (visible : Nat → Bool)
    (ns : Int) (draw : List Nat) :
    (∀ sl t e, sampleSlice (buildGroups rows) tr visible ns draw = some (sl, t) →
        e ∈ sl → visible e.kind = true) ∧
    (∀ kg ∈ buildGroups rows, visible kg.1 = false → countK visible tr kg = 0) ∧
    (0 ≤ ns → buildGroups rows ≠ [] →
      sampleSlice (buildGroups rows) tr (fun _ => false) ns draw = some ([], 0)) := by
  refine ⟨?_, ?_, ?_⟩
  · intro sl t e hres he
    rcases sampleSlice_some_inv hres with ⟨-, -, hsl, -⟩
    rw [hsl] at he
    rcases mem_sliceGroups_flatten (buildGroups rows) 0 e he with ⟨kg, hkg, a, p, hp, hget⟩
    have hs := sampledIdxs_sorted (trueTotal (buildGroups rows) tr visible) ns draw
    rcases groupPositions_vis_lt hs hp with ⟨hv, -⟩
    have hg2 : kg.2 = kindGroup rows kg.1 := mem_buildGroups hkg
    have hkind : e.kind = kg.1 := by
      refine mem_kindGroup_kind (hg2 ▸ List.get?_mem hget)
    rw [hkind]
    exact hv
  · intro kg _ hv
    simp [countK, idxStartK, idxEndK, hv]
  · intro hns hne
    have htot := trueTotal_const_false (buildGroups rows) tr
    have hcond : ¬(trueTotal (buildGroups rows) tr (fun _ => false) > ns ∧ ns < 0) := by
      omega
    rw [sampleSlice_eq_some hcond hne, htot]
    have hsi : sampledIdxs 0 ns draw = [] := by
      unfold sampledIdxs
      rw [if_neg (by omega)]
      rfl
    rw [hsi, sliceGroups_nil_s]

/-- C6 (counterexample): with one kind present, an empty visible set and
`max_samples = -1`, the call raises (`random.sample` with a negative sample
size) rather than returning an empty slice. -/
theorem claim_C6_counterexample :
    sampleSlice (buildGroups [⟨0, 0, 0, 100, 0⟩]) (0, 200) (fun _ => false) (-1) []
      = none := by
  decide

theorem claim_C6_witness :
    sampleSlice (buildGroups [⟨0, 0, 0, 100, 0⟩]) (0, 200) (fun _ => false) 5 []
      = some ([], 0) :=
  (claim_C6_amended [⟨0, 0, 0, 100, 0⟩] (0, 200) (fun _ => true) 5 []).2.2
    (by decide) (by decide)

/-- C4 (amended): an inverted time range (`start > end`) does not fault as
long as the sample budget is non-negative and the index holds at least one
kind — but the per-kind counts `hi_k - lo_k` are not clamped at `0`, so the
call may return a non-empty slice with a non-zero (even negative) reported
total; see `claim_C4_counterexample`. -/
theorem claim_C4_amended (rows : List Event) (tr : Int × Int) (visible : Nat → Bool)
    (ns : Int) (draw : List Nat) (_hinv : tr.2 < tr.1)
    (hne : buildGroups rows ≠ []) (hns : 0 ≤ ns) :
    (sampleSlice (buildGroups rows) tr visible ns draw).isSome = true := by
  rw [sampleSlice_eq_some (by omega) hne]
  rfl

/-- C4 (counterexample): an event spanning `[0, 100]` queried with the
inverted range `(start, end) = (50, 10)` is returned (slice of size 1, total
1), not the empty slice with total 0 the claim requires. -/
theorem claim_C4_counterexample :
    (10 : Int) < 50 ∧
    sampleSlice (buildGroups [⟨0, 0, 0, 100, 0⟩]) (50, 10) (fun _ => true) 10 []
      = some ([⟨0, 0, 0, 100, 0⟩], 1) := by
  decide

theorem claim_C4_witness :
    (sampleSlice (buildGroups [⟨0, 0, 0, 100, 0⟩]) (50, 10) (fun _ => true) 10 []).isSome
      = true :=
  claim_C4_amended [⟨0, 0, 0, 100, 0⟩] (50, 10) (fun _ => true) 10 [] (by decide)
    (by decide) (by decide)

/-- C5 (amended): `max_samples = 0` yields an empty slice (when the index
holds at least one kind), but a strictly negative `max_samples` makes
`random.sample` raise `ValueError` whenever `num_total > max_samples`, so the
call errors instead of returning an empty slice; see
`claim_C5_counterexample`. -/
theorem claim_C5_amended (groups : List (Nat × List Event)) (tr : Int × Int)
    (visible : Nat → Bool) (hne : groups ≠ []) :
    (sampleSlice groups tr visible 0 [] = some ([], trueTotal groups tr visible)) ∧
    (∀ ns draw, ns < 0 → trueTotal groups tr visible > ns →
      sampleSlice groups tr visible ns draw = none) := by
  constructor
  · have hcond : ¬(trueTotal groups tr visible > 0 ∧ (0 : Int) < 0) := by omega
    rw [sampleSlice_eq_some hcond hne]
    have hsi : sampledIdxs (trueTotal groups tr visible) 0 [] = [] := by
      unfold sampledIdxs
      by_cases h : trueTotal groups tr visible > 0
      · rw [if_pos h]
        rfl
      · rw [if_neg h]
        have hz : (trueTotal groups tr visible).toNat = 0 := by omega
        rw [hz]
        rfl
    rw [hsi, sliceGroups_nil_s]
  · intro ns draw h1 h2
    unfold sampleSlice
    rw [if_pos ⟨h2, h1⟩]

/-- C5 (counterexample): one visible kind, `max_samples = -1`: the call
raises (`random.sample` with a negative sample size), it does not return an
empty slice. -/
theorem claim_C5_counterexample :
    sampleSlice (buildGroups [⟨0, 0, 0, 100, 0⟩]) (0, 200) (fun _ => true) (-1) []
      = none := by
  decide

theorem claim_C5_witness :
    sampleSlice (buildGroups [⟨0, 0, 0, 100, 0⟩]) (0, 200) (fun _ => true) 0 []
      = some ([], trueTotal (buildGroups [⟨0, 0, 0, 100, 0⟩]) (0, 200) (fun _ => true)) :=
  (claim_C5_amended (buildGroups [⟨0, 0, 0, 100, 0⟩]) (0, 200) (fun _ => true)
    (by decide)).1

/-- C10: a TraceIndex built from an empty event set has no kinds, and every
query against it raises (for a non-negative budget the failure is
`pandas.concat` over zero per-kind frames; for a negative budget
`random.sample` raises first) — it never returns an empty slice. -/
theorem claim_C10 (tr : Int × Int) (visible : Nat → Bool) (ns : Int) (draw : List Nat) :
    sampleSlice (buildGroups []) tr visible ns draw = none := by
  have h : buildGroups ([] : List Event) = [] := rfl
  rw [h]
  unfold sampleSlice
  by_cases hns : trueTotal [] tr visible > ns ∧ ns < 0
  · rw [if_pos hns]
  · rw [if_neg hns, if_pos rfl]

/-- C8 (amended): `read_csv` groups events by kind (every event in a group
carries that group's kind) and `get_kinds` returns the distinct kinds — but
in ascending sorted order (pandas `groupby` sorts its keys), not in
first-seen order; first-seen order is refuted by `claim_C8_counterexample`.
The result is a function of the input rows alone, hence stable for the
index's lifetime. -/
theorem claim_C8_amended (rows : List Event) :
    (getKinds rows).Nodup ∧ (getKinds rows).Sorted (· ≤ ·) ∧
    (∀ k, k ∈ getKinds rows ↔ ∃ e ∈ rows, e.kind = k) ∧
    (∀ kg ∈ buildGroups rows, ∀ e ∈ kg.2, e.kind = kg.1) := by
  refine ⟨?_, ?_, ?_, ?_⟩
  · rw [getKinds_eq_kindsOf]
    exact kindsOf_nodup rows
  · rw [getKinds_eq_kindsOf]
    exact List.sorted_insertionSort _ _
  · intro k
    rw [getKinds_eq_kindsOf]
    unfold kindsOf
    rw [List.mem_insertionSort, List.mem_dedup, List.mem_map]
  · intro kg hkg e he
    rw [mem_buildGroups hkg] at he
    exact mem_kindGroup_kind he

/-- C8 (counterexample): rows whose kinds appear in the order `1, 0`: the
first-seen kind order is `[1, 0]`, but `get_kinds` returns the sorted order
`[0, 1]`. -/
theorem claim_C8_counterexample :
    getKinds [⟨0, 0, 0, 0, 1⟩, ⟨0, 1, 0, 1, 0⟩]
      ≠ firstSeenKinds [⟨0, 0, 0, 0, 1⟩, ⟨0, 1, 0, 1, 0⟩] := by
  decide

theorem claim_C8_witness : (⟨0, 1, 0, 1, 0⟩ : Event).kind = 0 :=
  (claim_C8_amended [⟨0, 0, 0, 0, 1⟩, ⟨0, 1, 0, 1, 0⟩]).2.2.2
    (0, kindGroup [⟨0, 0, 0, 0, 1⟩, ⟨0, 1, 0, 1, 0⟩] 0) (by decide)
    ⟨0, 1, 0, 1, 0⟩ (by decide)

/-! ### Lane position assignment -/

lemma addRankPosFrom_get? (numConc : Nat) :
    ∀ (df : List Event) (j i : Nat),
      (addRankPosFrom numConc j df).get? i = (df.get? i).map (rankPosRow numConc (j + i)) := by
  intro df
  induction df with
  | nil => intro j i; simp [addRankPosFrom]
  | cons e rest ih =>
      intro j i
      cases i with
      | zero => simp [addRankPosFrom]
      | succ i =>
          have h : j + 1 + i = j + (i + 1) := by omega
          simp only [addRankPosFrom, List.get?_cons_succ, ih (j + 1) i, h]

/-- C9: `add_rank_pos` assigns, to the row at positional index `i`,
`height = 1/lane_count`,
`rank0_pos = rank0 + (i mod lane_count + 0.5)/lane_count`, and
`rank1_pos = rank0_pos` when the two endpoints agree, else `rank1 + 0.5`;
with `lane_count = 1` every row's `rank0_pos` is exactly `rank0 + 0.5`. -/
theorem claim_C9 (df : List Event) (numConc : Nat) (_h1 : 1 ≤ numConc) (i : Nat)
    (e : Event) (lf : LaneFields)
    (hget : (add_rank_pos df numConc).get? i = some (e, lf)) :
    lf.height = 1 / (numConc : ℚ) ∧
    lf.rank0_pos = (e.rank0 : ℚ) + (((i % numConc : Nat) : ℚ) + 1/2) / (numConc : ℚ) ∧
    lf.rank1_pos = (if e.rank0 = e.rank1 then lf.rank0_pos else (e.rank1 : ℚ) + 1/2) ∧
    (numConc = 1 → lf.rank0_pos = (e.rank0 : ℚ) + 1/2) := by
  unfold add_rank_pos at hget
  rw [addRankPosFrom_get? numConc df 0 i] at hget
  rcases Option.map_eq_some'.mp hget with ⟨e', _hget', hrow⟩
  rw [Nat.zero_add] at hrow
  unfold rankPosRow at hrow
  have he : e' = e := congrArg Prod.fst hrow
  have hlf : lf = { rank0_pos := (e'.rank0 : ℚ) + (((i % numConc : Nat) : ℚ) + 1/2) / (numConc : ℚ)
                    height := 1 / (numConc : ℚ)
                    rank1_pos := if e'.rank0 = e'.rank1
                      then (e'.rank0 : ℚ) + (((i % numConc : Nat) : ℚ) + 1/2) / (numConc : ℚ)
                      else (e'.rank1 : ℚ) + 1/2 } := (congrArg Prod.snd hrow).symm
  subst he
  refine ⟨by rw [hlf], by rw [hlf], ?_, ?_⟩
  · rw [hlf]
  · intro hc
    subst hc
    rw [hlf]
    norm_num [Nat.mod_one]

theorem claim_C9_witness :
    (⟨13/4, 1/2, 9/2⟩ : LaneFields).rank0_pos
      = ((⟨3, 0, 4, 0, 0⟩ : Event).rank0 : ℚ) + ((((0 : Nat) % 2 : Nat) : ℚ) + 1/2) / ((2 : Nat) : ℚ) :=
  (claim_C9 [⟨3, 0, 4, 0, 0⟩] 2 (by decide) 0 ⟨3, 0, 4, 0, 0⟩ ⟨13/4, 1/2, 9/2⟩
    (by norm_num [add_rank_pos, addRankPosFrom, rankPosRow])).2.1

/-! ### No duplicates -/

lemma sampledIdxs_nodup {numTotal numSamples : Int} {draw : List Nat}
    (hnd : draw.Nodup) : (sampledIdxs numTotal numSamples draw).Nodup := by
  unfold sampledIdxs
  refine (List.perm_insertionSort _ _).nodup_iff.mpr ?_
  by_cases h : numTotal > numSamples
  · rw [if_pos h]
    exact List.Nodup.map (fun x y hxy => Int.ofNat.inj hxy) hnd
  · rw [if_neg h]
    exact List.Nodup.map (fun x y hxy => Int.ofNat.inj hxy) (List.nodup_range _)


lemma groupPositions_nodup {istart : Nat} {s : List Int} {a b : Int}
    (hs : s.Sorted (· ≤ ·)) (hnd : s.Nodup) : (groupPositions istart s a b).Nodup := by
  unfold groupPositions
  rw [slice_eq_filter s a b hs]
  refine List.Nodup.map_on ?_ (hnd.filter _)
  intro v1 hv1 v2 hv2 heq
  have h1 : a ≤ v1 := by
    have := (List.mem_filter.mp hv1).2
    simp only [Bool.and_eq_true, decide_eq_true_eq] at this
    exact this.1
  have h2 : a ≤ v2 := by
    have := (List.mem_filter.mp hv2).2
    simp only [Bool.and_eq_true, decide_eq_true_eq] at this
    exact this.1
  omega

lemma mem_idGroups_shape {visible : Nat → Bool} {tr : Int × Int} {s : List Int} :
    ∀ (groups : List (Nat × List Event)) (acc : Int) (l : List (Nat × Nat)),
      l ∈ idGroups visible tr s groups acc →
      ∃ kg ∈ groups, ∃ a : Int,
        l = (groupPositions (idxStartK visible tr.1 kg.1 kg.2) s a
              (a + countK visible tr kg)).map (fun p => (kg.1, p)) := by
  intro groups
  induction groups with
  | nil =>
      intro acc l hl
      simp [idGroups] at hl
  | cons kg rest ih =>
      intro acc l hl
      simp only [idGroups] at hl
      rcases List.mem_cons.mp hl with h | h
      · exact ⟨kg, List.mem_cons_self kg rest, acc, h⟩
      · rcases ih (acc + countK visible tr kg) l h with ⟨kg', hkg', a, hleq⟩
        exact ⟨kg', List.mem_cons_of_mem kg hkg', a, hleq⟩

lemma idGroups_pairwise_disjoint {visible : Nat → Bool} {tr : Int × Int} {s : List Int} :
    ∀ (groups : List (Nat × List Event)) (acc : Int),
      (groups.map Prod.fst).Nodup →
      (idGroups visible tr s groups acc).Pairwise List.Disjoint := by
  intro groups
  induction groups with
  | nil => intro acc _; simp [idGroups]
  | cons kg rest ih =>
      intro acc hnd
      rw [List.map_cons, List.nodup_cons] at hnd
      simp only [idGroups]
      refine List.pairwise_cons.mpr ⟨?_, ih _ hnd.2⟩
      intro l hl x hxhead hxl
      rcases mem_idGroups_shape rest _ l hl with ⟨kg', hkg', a, hleq⟩
      have hx1 : x.1 = kg.1 := by
        rcases List.mem_map.mp hxhead with ⟨p, _, hpe⟩
        rw [← hpe]
      have hx2 : x.1 = kg'.1 := by
        rw [hleq] at hxl
        rcases List.mem_map.mp hxl with ⟨p, _, hpe⟩
        rw [← hpe]
      exact hnd.1 (hx1 ▸ hx2 ▸ List.mem_map_of_mem Prod.fst hkg')

/-- C7: with the distinct virtual indices `random.sample` guarantees, a
single call never materialises the same underlying event — the same `(kind,
local position)` pair — twice: within a kind the drawn indices map injectively
to local positions, and distinct kinds own disjoint identity spaces. -/
theorem claim_C7 (rows : List Event) (tr : Int × Int) (visible : Nat → Bool)
    (ns : Int) (draw : List Nat) (hnd : draw.Nodup) :
    (sampleIds (buildGroups rows) tr visible ns draw).Nodup := by
  unfold sampleIds
  rw [List.nodup_flatten]
  have hs := sampledIdxs_sorted (trueTotal (buildGroups rows) tr visible) ns draw
  have hsn := @sampledIdxs_nodup (trueTotal (buildGroups rows) tr visible) ns draw hnd
  constructor
  · intro l hl
    rcases mem_idGroups_shape (buildGroups rows) 0 l hl with ⟨kg, _, a, hleq⟩
    rw [hleq]
    refine (groupPositions_nodup hs hsn).map ?_
    intro p q hpq
    exact ((Prod.mk.injEq _ _ _ _).mp hpq).2
  · refine idGroups_pairwise_disjoint (buildGroups rows) 0 ?_
    rw [buildGroups_fst]
    exact kindsOf_nodup rows

theorem claim_C7_witness :
    (sampleIds (buildGroups [⟨0, 1, 0, 1, 0⟩, ⟨0, 2, 0, 2, 0⟩, ⟨0, 3, 0, 3, 1⟩])
      (0, 10) (fun _ => true) 2 [2, 0]).Nodup :=
  claim_C7 [⟨0, 1, 0, 1, 0⟩, ⟨0, 2, 0, 2, 0⟩, ⟨0, 3, 0, 3, 1⟩] (0, 10) (fun _ => true)
    2 [2, 0] (by decide)

/-! ### Slice size -/

lemma countP_section_split (s : List Int) (a m b : Int) (h1 : a ≤ m) (h2 : m ≤ b) :
    s.countP (fun v => decide (a ≤ v) && decide (v < m))
      + s.countP (fun v => decide (m ≤ v) && decide (v < b))
      = s.countP (fun v => decide (a ≤ v) && decide (v < b)) := by
  induction s with
  | nil => rfl
  | cons x xs ih =>
      simp only [List.countP_cons]
      cases hd1 : decide (a ≤ x) <;> cases hd2 : decide (x < m) <;>
        cases hd3 : decide (m ≤ x) <;> cases hd4 : decide (x < b) <;>
        simp [hd1, hd2, hd3, hd4] <;>
        simp only [decide_eq_true_eq, decide_eq_false_iff_not] at hd1 hd2 hd3 hd4 <;>
        omega

lemma idxEndK_le_length (visible : Nat → Bool) (stop : Int) (k : Nat) (g : List Event) :
    idxEndK visible stop k g ≤ g.length := by
  unfold idxEndK
  by_cases hv : visible k
  · rw [if_pos hv]
    exact List.countP_le_length _
  · rw [if_neg hv]
    exact Nat.zero_le _

lemma matGroup_length {visible : Nat → Bool} {tr : Int × Int} {kg : Nat × List Event}
    {s : List Int} {a : Int} (hs : s.Sorted (· ≤ ·)) :
    (matGroup kg.2 (idxStartK visible tr.1 kg.1 kg.2) s a (a + countK visible tr kg)).length
      = s.countP (fun v => decide (a ≤ v) && decide (v < a + countK visible tr kg)) := by
  unfold matGroup
  rw [filterMap_get?_length]
  · unfold groupPositions
    rw [List.length_map, slice_eq_filter s _ _ hs, ← List.countP_eq_length_filter]
  · intro p hp
    rcases groupPositions_vis_lt hs hp with ⟨-, hlt⟩
    exact lt_of_lt_of_le hlt (idxEndK_le_length _ _ _ _)

lemma sum_countK_nonneg {visible : Nat → Bool} {tr : Int × Int}
    {groups : List (Nat × List Event)}
    (h : ∀ kg ∈ groups, 0 ≤ countK visible tr kg) :
    0 ≤ (groups.map (countK visible tr)).sum := by
  refine List.sum_nonneg ?_
  intro x hx
  rcases List.mem_map.mp hx with ⟨kg, hkg, he⟩
  exact he ▸ h kg hkg

lemma sliceGroups_flatten_length {visible : Nat → Bool} {tr : Int × Int} {s : List Int}
    (hs : s.Sorted (· ≤ ·)) :
    ∀ (groups : List (Nat × List Event)) (acc : Int),
      (∀ kg ∈ groups, 0 ≤ countK visible tr kg) →
      ((sliceGroups visible tr s groups acc).flatten).length
        = s.countP (fun v => decide (acc ≤ v)
            && decide (v < acc + (groups.map (countK visible tr)).sum)) := by
  intro groups
  induction groups with
  | nil =>
      intro acc _
      simp only [sliceGroups, List.flatten_nil, List.length_nil, List.map_nil,
        List.sum_nil, add_zero]
      symm
      refine List.countP_eq_zero.mpr ?_
      intro v _
      simp only [Bool.and_eq_true, decide_eq_true_eq, not_and, not_lt]
      exact fun h => h
  | cons kg rest ih =>
      intro acc h
      have hc : 0 ≤ countK visible tr kg := h kg (List.mem_cons_self kg rest)
      have hrest : 0 ≤ (rest.map (countK visible tr)).sum :=
        sum_countK_nonneg (fun kg2 hkg2 => h kg2 (List.mem_cons_of_mem kg hkg2))
      simp only [sliceGroups, List.flatten_cons, List.length_append, List.map_cons,
        List.sum_cons]
      rw [matGroup_length hs, ih (acc + countK visible tr kg)
        (fun kg2 hkg2 => h kg2 (List.mem_cons_of_mem kg hkg2))]
      have hsplit := countP_section_split s acc (acc + countK visible tr kg)
        (acc + countK visible tr kg + (rest.map (countK visible tr)).sum)
        (by omega) (by omega)
      simp only [← add_assoc]
      exact hsplit

lemma countK_nonneg {rows : List Event} {tr : Int × Int} {visible : Nat → Bool}
    (hwf : ∀ e ∈ rows, e.t0 ≤ e.t1) (hr : tr.1 ≤ tr.2) {kg : Nat × List Event}
    (hkg : kg ∈ buildGroups rows) : 0 ≤ countK visible tr kg := by
  unfold countK
  by_cases hv : visible kg.1
  · simp only [idxStartK, idxEndK, hv, if_true]
    have hmono : kg.2.countP (fun e => decide (e.t1 < tr.1))
        ≤ kg.2.countP (fun e => decide (e.t0 ≤ tr.2)) := by
      refine List.countP_mono_left ?_
      intro e he hd
      simp only [decide_eq_true_eq] at *
      have hrow : e ∈ rows := by
        rw [mem_buildGroups hkg] at he
        exact mem_kindGroup_rows he
      have := hwf e hrow
      omega
    omega
  · simp [idxStartK, idxEndK, hv]

/-- C2 (amended): the budget equation
`size = min(max_samples, true_total_count)` holds whenever every event is
well-formed (`t0 ≤ t1`), the range is well-ordered (`start ≤ end`) and the
budget is non-negative — conditions under which every per-kind count is
non-negative.  The guarantees of `random.sample` about the drawn indices are
assumed only when that path is actually taken, i.e. when
`true_total_count > max_samples`; in the at/under-budget case the equation
holds for every `draw`.  `claim_C2_counterexample` shows the original claim
failing on a degenerate query where the reported total is negative. -/
theorem claim_C2_amended (rows : List Event) (tr : Int × Int) (visible : Nat → Bool)
    (ns : Int) (draw : List Nat) (sl : List Event) (t : Int)
    (hwf : ∀ e ∈ rows, e.t0 ≤ e.t1) (hr : tr.1 ≤ tr.2) (hns : 0 ≤ ns)
    (hd : trueTotal (buildGroups rows) tr visible > ns →
      ValidDraw draw (trueTotal (buildGroups rows) tr visible) ns)
    (hres : sampleSlice (buildGroups rows) tr visible ns draw = some (sl, t)) :
    (sl.length : Int) = min ns t := by
  rcases sampleSlice_some_inv hres with ⟨-, -, hsl, ht⟩
  have hcnt : ∀ kg ∈ buildGroups rows, 0 ≤ countK visible tr kg :=
    fun kg hkg => countK_nonneg hwf hr hkg
  have htot : 0 ≤ trueTotal (buildGroups rows) tr visible := sum_countK_nonneg hcnt
  have hs := sampledIdxs_sorted (trueTotal (buildGroups rows) tr visible) ns draw
  have hlen := sliceGroups_flatten_length hs (buildGroups rows) 0 hcnt
  have hsum : ((buildGroups rows).map (countK visible tr)).sum
      = trueTotal (buildGroups rows) tr visible := rfl
  rw [hsum] at hlen
  simp only [zero_add] at hlen
  rw [hsl, hlen]
  subst ht
  by_cases hb : trueTotal (buildGroups rows) tr visible > ns
  · have hperm : List.Perm
        (sampledIdxs (trueTotal (buildGroups rows) tr visible) ns draw)
        (draw.map Int.ofNat) := by
      unfold sampledIdxs
      rw [if_pos hb]
      exact List.perm_insertionSort _ _
    rw [hperm.countP_eq]
    have hall : ∀ v ∈ draw.map Int.ofNat,
        (decide ((0 : Int) ≤ v) && decide (v < trueTotal (buildGroups rows) tr visible))
          = true := by
      intro v hv
      rcases List.mem_map.mp hv with ⟨n, hn, rfl⟩
      have := (hd hb).2.2 n hn
      simp only [Int.ofNat_eq_coe, Bool.and_eq_true, decide_eq_true_eq]
      omega
    rw [List.countP_eq_length.mpr hall, List.length_map, (hd hb).1,
      Int.toNat_of_nonneg hns]
    exact (min_eq_left (le_of_lt hb)).symm
  · have hperm : List.Perm
        (sampledIdxs (trueTotal (buildGroups rows) tr visible) ns draw)
        (rangeCast (trueTotal (buildGroups rows) tr visible).toNat) := by
      unfold sampledIdxs
      rw [if_neg hb]
      exact List.perm_insertionSort _ _
    rw [hperm.countP_eq]
    have hall : ∀ v ∈ rangeCast (trueTotal (buildGroups rows) tr visible).toNat,
        (decide ((0 : Int) ≤ v) && decide (v < trueTotal (buildGroups rows) tr visible))
          = true := by
      intro v hv
      rcases List.mem_map.mp hv with ⟨n, hn, rfl⟩
      have := List.mem_range.mp hn
      simp only [Int.ofNat_eq_coe, Bool.and_eq_true, decide_eq_true_eq]
      omega
    rw [List.countP_eq_length.mpr hall]
    unfold rangeCast
    rw [List.length_map, List.length_range, Int.toNat_of_nonneg htot]
    exact (min_eq_right (not_lt.mp hb)).symm

/-- C2 (counterexample): a single event `(t0 = t1 = 5)` with the inverted
range `(10, 0)` makes `num_total = -1`; the returned slice is empty, so its
size `0` differs from `min(max_samples, true_total_count) = -1`. -/
theorem claim_C2_counterexample :
    sampleSlice (buildGroups [⟨0, 5, 0, 5, 0⟩]) (10, 0) (fun _ => true) 3 []
      = some ([], -1) ∧
    ((([] : List Event).length : Int) ≠ min 3 (-1)) := by
  decide

theorem claim_C2_witness :
    ((([⟨0, 1, 0, 1, 0⟩, ⟨0, 3, 0, 3, 0⟩] : List Event).length : Int) = min 2 3) :=
  claim_C2_amended [⟨0, 1, 0, 1, 0⟩, ⟨0, 2, 0, 2, 0⟩, ⟨0, 3, 0, 3, 0⟩] (0, 10)
    (fun _ => true) 2 [2, 0] [⟨0, 1, 0, 1, 0⟩, ⟨0, 3, 0, 3, 0⟩] 3
    (by decide) (by decide) (by decide) (by decide) (by decide)

/-! ### Exactness under budget -/

lemma rangeCast_sorted (n : Nat) : (rangeCast n).Sorted (· ≤ ·) := by
  unfold rangeCast
  exact List.Pairwise.map _ (fun a b h => Int.ofNat_le.mpr (le_of_lt h))
    (List.pairwise_lt_range n)

lemma mem_rangeCast {N : Nat} {v : Int} (hv : v ∈ rangeCast N) : 0 ≤ v ∧ v < N := by
  rcases List.mem_map.mp hv with ⟨j, hj, rfl⟩
  have := List.mem_range.mp hj
  simp only [Int.ofNat_eq_coe]
  omega

lemma rangeCast_filter :
    ∀ (N : Nat) (a b : Int), 0 ≤ a → b ≤ N →
      (rangeCast N).filter (fun v => decide (a ≤ v) && decide (v < b))
        = (List.range (b - a).toNat).map (fun j => a + Int.ofNat j) := by
  intro N
  induction N with
  | zero =>
      intro a b h0 hb
      have hz : (b - a).toNat = 0 := by omega
      rw [hz]
      rfl
  | succ N ih =>
      intro a b h0 hb
      have hsplit : rangeCast (N + 1) = rangeCast N ++ [(N : Int)] := by
        unfold rangeCast
        rw [List.range_succ, List.map_append]
        rfl
      rw [hsplit, List.filter_append]
      by_cases hbn : b ≤ N
      · rw [ih a b h0 hbn]
        have hone : ([( N : Int)]).filter (fun v => decide (a ≤ v) && decide (v < b))
            = [] := by
          simp only [List.filter_cons, List.filter_nil]
          have hcond : ¬((decide (a ≤ (N : Int)) && decide ((N : Int) < b)) = true) := by
            simp only [Bool.and_eq_true, decide_eq_true_eq, not_and, not_lt]
            intro _
            exact hbn
          rw [if_neg hcond]
        rw [hone, List.append_nil]
      · have hb1 : b = (N : Int) + 1 := by
          push_cast at hb
          omega
        by_cases haN : a ≤ (N : Int)
        · have hcong : (rangeCast N).filter (fun v => decide (a ≤ v) && decide (v < b))
              = (rangeCast N).filter (fun v => decide (a ≤ v) && decide (v < (N : Int))) := by
            refine List.filter_congr ?_
            intro v hv
            have hvN := (mem_rangeCast hv).2
            have h1 : v < b := by omega
            have h2 : v < (N : Int) := hvN
            simp [h1, h2]
          rw [hcong, ih a (N : Int) h0 (le_refl _)]
          have hone : ([( N : Int)]).filter (fun v => decide (a ≤ v) && decide (v < b))
              = [(N : Int)] := by
            simp only [List.filter_cons, List.filter_nil]
            have hcond : (decide (a ≤ (N : Int)) && decide ((N : Int) < b)) = true := by
              simp only [Bool.and_eq_true, decide_eq_true_eq]
              omega
            rw [if_pos hcond]
          rw [hone]
          have hsucc : (b - a).toNat = ((N : Int) - a).toNat + 1 := by omega
          rw [hsucc, List.range_succ, List.map_append]
          have hlast : a + Int.ofNat (((N : Int) - a).toNat) = (N : Int) := by
            simp only [Int.ofNat_eq_coe]
            omega
          rw [List.map_cons, List.map_nil, hlast]
        · have hz : (b - a).toNat = 0 := by omega
          rw [hz]
          have h1 : (rangeCast N).filter (fun v => decide (a ≤ v) && decide (v < b))
              = [] := by
            refine List.filter_eq_nil_iff.mpr ?_
            intro v hv
            have := (mem_rangeCast hv).2
            simp only [Bool.and_eq_true, decide_eq_true_eq, not_and, not_lt]
            intro hav
            omega
          have h2 : ([( N : Int)]).filter (fun v => decide (a ≤ v) && decide (v < b))
              = [] := by
            simp only [List.filter_cons, List.filter_nil]
            have hcond : ¬((decide (a ≤ (N : Int)) && decide ((N : Int) < b)) = true) := by
              simp only [Bool.and_eq_true, decide_eq_true_eq, not_and, not_lt]
              intro hav
              omega
            rw [if_neg hcond]
          rw [h1, h2]
          rfl

lemma matGroup_rangeCast (g : List Event) (istart c : Nat) (a : Int) (N : Nat)
    (h0 : 0 ≤ a) (hN : a + c ≤ N) (hlen : istart + c ≤ g.length) :
    matGroup g istart (rangeCast N) a (a + c) = (g.drop istart).take c := by
  unfold matGroup groupPositions
  rw [slice_eq_filter _ _ _ (rangeCast_sorted N),
    rangeCast_filter N a (a + c) h0 (by omega), List.map_map]
  have hc : (a + (c : Int) - a).toNat = c := by omega
  rw [hc]
  have hfe : ((fun v => ((istart : Int) + (v - a)).toNat) ∘ (fun j : Nat => a + Int.ofNat j))
      = (fun j : Nat => istart + j) := by
    funext j
    simp only [Function.comp, Int.ofNat_eq_coe]
    omega
  rw [hfe]
  exact filterMap_get?_sequential g istart c hlen

lemma sliceGroups_rangeCast {visible : Nat → Bool} {tr : Int × Int} (N : Nat) :
    ∀ (groups : List (Nat × List Event)) (acc : Int),
      (∀ kg ∈ groups, idxStartK visible tr.1 kg.1 kg.2 ≤ idxEndK visible tr.2 kg.1 kg.2) →
      0 ≤ acc → acc + (groups.map (countK visible tr)).sum ≤ N →
      sliceGroups visible tr (rangeCast N) groups acc
        = groups.map (exactGroup visible tr) := by
  intro groups
  induction groups with
  | nil => intro acc _ _ _; rfl
  | cons kg rest ih =>
      intro acc h hacc hsum
      have hkg := h kg (List.mem_cons_self kg rest)
      have hc : countK visible tr kg
          = ((idxEndK visible tr.2 kg.1 kg.2 - idxStartK visible tr.1 kg.1 kg.2 : Nat) : Int) := by
        unfold countK
        omega
      have hrest : 0 ≤ (rest.map (countK visible tr)).sum := by
        refine sum_countK_nonneg ?_
        intro kg2 hkg2
        have := h kg2 (List.mem_cons_of_mem kg hkg2)
        unfold countK
        omega
      simp only [List.map_cons, List.sum_cons] at hsum
      simp only [sliceGroups, List.map_cons]
      congr 1
      · rw [hc]
        have hmg := matGroup_rangeCast kg.2 (idxStartK visible tr.1 kg.1 kg.2)
          (idxEndK visible tr.2 kg.1 kg.2 - idxStartK visible tr.1 kg.1 kg.2) acc N hacc
          (by omega) (by have := idxEndK_le_length visible tr.2 kg.1 kg.2; omega)
        rw [hmg]
        rfl
      · exact ih (acc + countK visible tr kg)
          (fun kg2 hkg2 => h kg2 (List.mem_cons_of_mem kg hkg2))
          (by omega) (by omega)

lemma exactSlice_length {visible : Nat → Bool} {tr : Int × Int} :
    ∀ groups : List (Nat × List Event),
      (∀ kg ∈ groups, idxStartK visible tr.1 kg.1 kg.2 ≤ idxEndK visible tr.2 kg.1 kg.2) →
      ((exactSlice groups tr visible).length : Int) = trueTotal groups tr visible := by
  intro groups
  induction groups with
  | nil => intro _; rfl
  | cons kg rest ih =>
      intro h
      have hkg := h kg (List.mem_cons_self kg rest)
      have hlen := idxEndK_le_length visible tr.2 kg.1 kg.2
      unfold exactSlice trueTotal at ih ⊢
      simp only [List.map_cons, List.flatten_cons, List.length_append, List.sum_cons]
      rw [Nat.cast_add, ih (fun kg2 hkg2 => h kg2 (List.mem_cons_of_mem kg hkg2))]
      have hhead : ((exactGroup visible tr kg).length : Int) = countK visible tr kg := by
        unfold exactGroup countK
        rw [List.length_take, List.length_drop]
        omega
      rw [hhead]

/-- C3 (amended): when every event is well-formed (`t0 ≤ t1`), the range is
well-ordered and the index holds at least one kind, a query with
`true_total_count ≤ max_samples` returns — for every possible random draw,
i.e. without consulting the random source — exactly the full per-kind
half-open ranges `[lo_k, hi_k)` in kind order and ascending local-position
order, with `true_total_count` equal to the number of returned events.
`claim_C3_counterexample` shows the claim failing without well-formedness:
a malformed row makes one per-kind count negative, which shifts the virtual
index space and drops matching events of the next kind. -/
theorem claim_C3_amended (rows : List Event) (tr : Int × Int) (visible : Nat → Bool)
    (ns : Int) (hwf : ∀ e ∈ rows, e.t0 ≤ e.t1) (hr : tr.1 ≤ tr.2)
    (hne : buildGroups rows ≠ [])
    (htot : trueTotal (buildGroups rows) tr visible ≤ ns) :
    (∀ draw, sampleSlice (buildGroups rows) tr visible ns draw
        = some (exactSlice (buildGroups rows) tr visible,
                trueTotal (buildGroups rows) tr visible)) ∧
    ((exactSlice (buildGroups rows) tr visible).length : Int)
        = trueTotal (buildGroups rows) tr visible := by
  have hcnt0 : ∀ kg ∈ buildGroups rows, 0 ≤ countK visible tr kg :=
    fun kg hkg => countK_nonneg hwf hr hkg
  have hcnt : ∀ kg ∈ buildGroups rows,
      idxStartK visible tr.1 kg.1 kg.2 ≤ idxEndK visible tr.2 kg.1 kg.2 := by
    intro kg hkg
    have := hcnt0 kg hkg
    unfold countK at this
    omega
  have htot0 : 0 ≤ trueTotal (buildGroups rows) tr visible := sum_countK_nonneg hcnt0
  constructor
  · intro draw
    rw [sampleSlice_eq_some (by omega) hne]
    have hsi : sampledIdxs (trueTotal (buildGroups rows) tr visible) ns draw
        = rangeCast (trueTotal (buildGroups rows) tr visible).toNat := by
      unfold sampledIdxs
      rw [if_neg (by omega)]
      exact (rangeCast_sorted _).insertionSort_eq
    rw [hsi, sliceGroups_rangeCast (trueTotal (buildGroups rows) tr visible).toNat
      (buildGroups rows) 0 hcnt (le_refl 0) (by
        have hsum : ((buildGroups rows).map (countK visible tr)).sum
            = trueTotal (buildGroups rows) tr visible := rfl
        omega)]
    rfl
  · exact exactSlice_length (buildGroups rows) hcnt

/-- C3 (counterexample): kind `0` holds a single malformed row
`(t0 = 7, t1 = 1)`, kind `1` holds `(3,3)` and `(4,4)`; range `[2, 6]`,
budget `10`.  `true_total_count = 1 ≤ 10`, yet the call returns only `(4,4)`
while the full matching ranges are `[(3,3), (4,4)]` — the matching event
`(3,3)` is dropped. -/
theorem claim_C3_counterexample :
    sampleSlice (buildGroups [⟨0, 7, 0, 1, 0⟩, ⟨0, 3, 0, 3, 1⟩, ⟨0, 4, 0, 4, 1⟩]) (2, 6)
        (fun _ => true) 10 []
      = some ([⟨0, 4, 0, 4, 1⟩], 1) ∧
    exactSlice (buildGroups [⟨0, 7, 0, 1, 0⟩, ⟨0, 3, 0, 3, 1⟩, ⟨0, 4, 0, 4, 1⟩]) (2, 6)
        (fun _ => true) = [⟨0, 3, 0, 3, 1⟩, ⟨0, 4, 0, 4, 1⟩] ∧
    trueTotal (buildGroups [⟨0, 7, 0, 1, 0⟩, ⟨0, 3, 0, 3, 1⟩, ⟨0, 4, 0, 4, 1⟩]) (2, 6)
        (fun _ => true) ≤ 10 := by
  decide

theorem claim_C3_witness :
    sampleSlice (buildGroups [⟨0, 1, 0, 2, 0⟩, ⟨0, 3, 0, 4, 0⟩]) (0, 10)
        (fun _ => true) 5 [9]
      = some (exactSlice (buildGroups [⟨0, 1, 0, 2, 0⟩, ⟨0, 3, 0, 4, 0⟩]) (0, 10)
                (fun _ => true),
              trueTotal (buildGroups [⟨0, 1, 0, 2, 0⟩, ⟨0, 3, 0, 4, 0⟩]) (0, 10)
                (fun _ => true)) :=
  (claim_C3_amended [⟨0, 1, 0, 2, 0⟩, ⟨0, 3, 0, 4, 0⟩] (0, 10) (fun _ => true) 5
    (by decide) (by decide) (by decide) (by decide)).1 [9]
